import Mathlib

/-!
Shallow embedding of src/extract_go_symbols.py.

The script walks a directory tree, reads every file whose name ends in .go,
applies two Python regular expressions to the full file text and serializes
all matches to one JSON array.  The two patterns are

  function pass : (//.*\n)*\s*func\s+(\(.*?\)\s+)?(\w+)\s*\((.*?)\)
  struct pass   : (//.*\n)*\s*type\s+(\w+)\s+struct\s* followed by an open brace

The patterns are embedded as executable matchers over List Char that follow
Python re semantics on these patterns: finditer returns leftmost matches and
resumes scanning at the end of each match; a starred capture group keeps only
the text of its LAST iteration; the dot does not match a newline; the lazy
star inside the optional receiver group and the lazy star of the parameter
capture backtrack by extending past candidate closing parentheses.  Where the
pattern components have pairwise disjoint first character classes the greedy
pieces never need to backtrack, and the matchers below exploit that; the
receiver group, where Python genuinely backtracks, is implemented with a full
candidate search.  Recursions that are not structural run on a fuel argument
set to length + 1, which is strictly more than the number of loop iterations
because every iteration consumes at least one character; fuel independence is
proved below.
-/

/-- Python whitespace class for the ASCII text the tool processes. -/
def isPySpace (c : Char) : Bool :=
  c == ' ' || c == '\t' || c == '\n' || c == '\r' || c == '\x0b' || c == '\x0c'

/-- Python word class for the ASCII identifiers the tool processes. -/
def isPyWord (c : Char) : Bool :=
  c.isAlpha || c.isDigit || c == '_'

/-- Python str.strip on the whitespace class above. -/
def pystrip (s : String) : String :=
  String.mk (((s.data.dropWhile isPySpace).reverse.dropWhile isPySpace).reverse)

/-- Match a literal sequence of characters at the head of the input,
returning the remainder on success. -/
def lit : List Char → List Char → Option (List Char)
  | [], cs => some cs
  | _ :: _, [] => none
  | l :: ls, c :: cs => if c = l then lit ls cs else none

/-- One or more whitespace characters, greedily, like a backslash-s plus.
In both patterns the next token starts with a non-space character, so the
greedy read never has to backtrack. -/
def spaces1 : List Char → Option (List Char)
  | [] => none
  | c :: cs => if isPySpace c then some (cs.dropWhile isPySpace) else none

/-- One or more word characters, greedily, like a backslash-w plus; in both
patterns the token after the identifier starts with a non-word character, so
the greedy read never has to backtrack. -/
def word1 (cs : List Char) : Option (List Char × List Char) :=
  match cs.takeWhile isPyWord with
  | [] => none
  | w => some (w, cs.dropWhile isPyWord)

/-- The lazy parameter capture: dot-star-lazy followed by a closing
parenthesis at the end of the pattern, so the shortest read wins: the capture
is everything before the first closing parenthesis, and the dot cannot cross
a newline. -/
def uptoClose : List Char → Option (List Char × List Char)
  | [] => none
  | c :: cs =>
    if c = '\x29' then some ([], cs)
    else if c = '\n' then none
    else
      match uptoClose cs with
      | some (p, r) => some (c :: p, r)
      | none => none

/-- One iteration of the comment group: two slashes, the rest of the line and
a mandatory newline.  The captured text includes the two slashes and the
newline, exactly as the Python group does. -/
def scanComment : List Char → Option (List Char × List Char)
  | c1 :: c2 :: rest =>
    if c1 = '/' ∧ c2 = '/' then
      match rest.dropWhile (fun c => c != '\n') with
      | [] => none
      | _ :: tail =>
        some (c1 :: c2 :: (rest.takeWhile (fun c => c != '\n') ++ ['\n']), tail)
    else none
  | _ => none

/-- Greedy repetition of the comment group.  The first component is the text
of the LAST iteration, which is what a Python starred capture group reports,
or none after zero iterations.  Backtracking to fewer iterations can never
rescue a failing continuation because a backtracked position starts with a
slash, which neither the whitespace star nor the following literal accepts,
so the greedy read is exact. -/
def scanCommentsAux : Nat → List Char → Option (List Char) × List Char
  | 0, cs => (none, cs)
  | fuel + 1, cs =>
    match scanComment cs with
    | none => (none, cs)
    | some (c1, rest) =>
      match scanCommentsAux fuel rest with
      | (none, r) => (some c1, r)
      | (some c2, r) => (some c2, r)

/-- Entry point for the comment group repetition; every iteration consumes at
least three characters, so length + 1 fuel never runs out. -/
def scanComments (cs : List Char) : Option (List Char) × List Char :=
  scanCommentsAux (cs.length + 1) cs

/-- The identifier and parameter part of the function pattern: a word, then
optional whitespace, an opening parenthesis and the lazy parameter capture. -/
def nameParams (cs : List Char) : Option (String × String × List Char) :=
  match word1 cs with
  | none => none
  | some (w, r1) =>
    match r1.dropWhile isPySpace with
    | [] => none
    | c :: r2 =>
      if c = '\x28' then
        match uptoClose r2 with
        | some (p, r3) => some (String.mk w, String.mk p, r3)
        | none => none
      else none

/-- Backtracking search for the receiver group, entered just after its
opening parenthesis.  Each closing parenthesis on the current line is a
candidate end for the lazy dot-star; the shortest candidate whose
continuation (mandatory whitespace, then identifier and parameters) succeeds
wins, exactly as the Python lazy star backtracks.  A newline stops the search
because the dot cannot cross it. -/
def afterRecv : List Char → Option (String × String × List Char)
  | [] => none
  | c :: cs =>
    if c = '\x29' then
      match spaces1 cs with
      | some r =>
        match nameParams r with
        | some res => some res
        | none => afterRecv cs
      | none => afterRecv cs
    else if c = '\n' then none
    else afterRecv cs

/-- The tail of the function pattern after the keyword and its mandatory
whitespace: first try the optional receiver group, then fall back to the
plain identifier, matching the greedy preference of an optional group. -/
def funcTail : List Char → Option (String × String × List Char)
  | [] => none
  | c :: rest =>
    if c = '\x28' then
      match afterRecv rest with
      | some res => some res
      | none => nameParams (c :: rest)
    else nameParams (c :: rest)

/-- One match of the function pattern: captured last comment line (group 1,
raw), identifier (group 3) and parameter text (group 4). -/
structure FuncMatch where
  doc : Option String
  name : String
  params : String
deriving DecidableEq

/-- Attempt the whole function pattern at the current position. -/
def matchFuncHere (cs : List Char) : Option (FuncMatch × List Char) :=
  match lit ['f', 'u', 'n', 'c'] (((scanComments cs).2).dropWhile isPySpace) with
  | none => none
  | some r2 =>
    match spaces1 r2 with
    | none => none
    | some r3 =>
      match funcTail r3 with
      | none => none
      | some (n, p, rest) =>
        some ({ doc := (scanComments cs).1.map (fun d => String.mk d),
                name := n, params := p }, rest)

/-- re.finditer for the function pattern: try the pattern at each position
from left to right and resume after the end of every match.  A successful
match always consumes at least one character, so length + 1 fuel never runs
out. -/
def funcFinditerAux : Nat → List Char → List FuncMatch
  | 0, _ => []
  | fuel + 1, cs =>
    match matchFuncHere cs with
    | some (m, rest) => m :: funcFinditerAux fuel rest
    | none =>
      match cs with
      | [] => []
      | _ :: t => funcFinditerAux fuel t

/-- All function pattern matches of a text, leftmost first. -/
def funcFinditer (cs : List Char) : List FuncMatch :=
  funcFinditerAux (cs.length + 1) cs

/-- One match of the struct pattern: captured last comment line (group 1,
raw) and identifier (group 2). -/
structure StructMatch where
  doc : Option String
  name : String
deriving DecidableEq

/-- Attempt the whole struct pattern at the current position.  All greedy
pieces have disjoint follow classes, so the read is deterministic. -/
def matchStructHere (cs : List Char) : Option (StructMatch × List Char) :=
  match lit ['t', 'y', 'p', 'e'] (((scanComments cs).2).dropWhile isPySpace) with
  | none => none
  | some r2 =>
    match spaces1 r2 with
    | none => none
    | some r3 =>
      match word1 r3 with
      | none => none
      | some (w, r4) =>
        match spaces1 r4 with
        | none => none
        | some r5 =>
          match lit ['s', 't', 'r', 'u', 'c', 't'] r5 with
          | none => none
          | some r6 =>
            match r6.dropWhile isPySpace with
            | [] => none
            | c :: rest =>
              if c = '\x7b' then
                some ({ doc := (scanComments cs).1.map (fun d => String.mk d),
                        name := String.mk w }, rest)
              else none

/-- re.finditer for the struct pattern. -/
def structFinditerAux : Nat → List Char → List StructMatch
  | 0, _ => []
  | fuel + 1, cs =>
    match matchStructHere cs with
    | some (m, rest) => m :: structFinditerAux fuel rest
    | none =>
      match cs with
      | [] => []
      | _ :: t => structFinditerAux fuel t

/-- All struct pattern matches of a text, leftmost first. -/
def structFinditer (cs : List Char) : List StructMatch :=
  structFinditerAux (cs.length + 1) cs

/-- Concatenation of full comment lines, each followed by its newline; used
to state properties about declarations preceded by comment blocks. -/
def commentBlock : List (List Char) → List Char
  | [] => []
  | l :: ls => l ++ '\n' :: commentBlock ls

/-- The one record shape the script builds: five fields, serialized in this
order. -/
structure SymbolRecord where
  type : String
  name : String
  params : String
  doc : String
  source_file : String
deriving DecidableEq

/-- Record built in the function loop of extract_go_symbols: doc is the
stripped group 1 if present, else the empty string. -/
def mkFuncRecord (file_path : String) (m : FuncMatch) : SymbolRecord :=
  { type := "function"
    name := m.name
    params := m.params
    doc := match m.doc with
           | some d => pystrip d
           | none => ""
    source_file := file_path }

/-- Record built in the struct loop of extract_go_symbols: params is always
the empty string. -/
def mkStructRecord (file_path : String) (m : StructMatch) : SymbolRecord :=
  { type := "struct"
    name := m.name
    params := ""
    doc := match m.doc with
           | some d => pystrip d
           | none => ""
    source_file := file_path }

/-- extract_go_symbols from the source: all function matches first (first
loop), then all struct matches (second loop), each in match order. -/
def extract_go_symbols (file_path : String) (content : String) : List SymbolRecord :=
  ((funcFinditer content.data).map (mkFuncRecord file_path))
    ++ ((structFinditer content.data).map (mkStructRecord file_path))

/-- The hardcoded root directory of the script. -/
def backend_dir : String := "./backend"

/-- One file seen by os.walk: the directory path the walk reports, the bare
file name and the file content. -/
structure FileEntry where
  dir : String
  name : String
  content : String
deriving DecidableEq

/-- The filesystem as the walk observes it: whether the root directory is
present and readable, and the files produced by the walk in walk order. -/
structure Filesystem where
  rootExists : Bool
  entries : List FileEntry
deriving DecidableEq

/-- os.walk with the default onerror of None: a missing or unreadable root
raises nothing and simply yields no directories at all. -/
def walkFiles (fs : Filesystem) : List FileEntry :=
  if fs.rootExists then fs.entries else []

/-- Python str.endswith. -/
def pyEndsWith (s sfx : String) : Bool :=
  sfx.data.isSuffixOf s.data

/-- os.path.join for the two-argument posix case the script uses. -/
def osPathJoin (a b : String) : String :=
  if b.data.head? = some '/' then b
  else if a = "" then b
  else if a.data.getLast? = some '/' then a ++ b
  else a ++ "/" ++ b

/-- The main loop: for every walked file whose name ends in .go, append the
records of extract_go_symbols to the accumulator. -/
def collect : List FileEntry → List SymbolRecord
  | [] => []
  | e :: es =>
    (if pyEndsWith e.name ".go" = true
     then extract_go_symbols (osPathJoin e.dir e.name) e.content
     else []) ++ collect es

/-- The final accumulator go_chunks of the script. -/
def go_chunks (fs : Filesystem) : List SymbolRecord :=
  collect (walkFiles fs)

/-- The JSON values the script can emit: strings, arrays and objects with
ordered fields. -/
inductive Json where
  | str : String → Json
  | arr : List Json → Json
  | obj : List (String × Json) → Json

/-- How json.dump serializes one record: an object with exactly these five
fields in insertion order. -/
def recordToJson (r : SymbolRecord) : Json :=
  .obj [("type", .str r.type), ("name", .str r.name), ("params", .str r.params),
        ("doc", .str r.doc), ("source_file", .str r.source_file)]

/-- Parse one serialized record back: accepts exactly the five-field object
shape emitted above. -/
def recordOfJson : Json → Option SymbolRecord
  | .obj [("type", .str t), ("name", .str n), ("params", .str p),
          ("doc", .str d), ("source_file", .str s)] =>
    some { type := t, name := n, params := p, doc := d, source_file := s }
  | _ => none

/-- The field names of a JSON object, in order. -/
def jsonFields : Json → Option (List String)
  | .obj l => some (l.map Prod.fst)
  | _ => none

/-- Observable outcome of one run: the exit code of the process and the JSON
document written to the output file, if any. -/
structure RunResult where
  exitCode : Nat
  written : Option Json

/-- The whole program.  The script has no error handling: os.walk swallows a
missing or unreadable root (yielding nothing), so the run always reaches the
final json.dump and exits 0 after writing the array of all records. -/
def runProgram (fs : Filesystem) : RunResult :=
  { exitCode := 0
    written := some (.arr ((go_chunks fs).map recordToJson)) }

/-! ### Basic helper lemmas about lists, characters and strings -/

theorem takeWhile_append_all {α : Type} (p : α → Bool) :
    ∀ (l r : List α), (∀ c ∈ l, p c = true) → (l ++ r).takeWhile p = l ++ r.takeWhile p
  | [], _, _ => rfl
  | a :: l, r, h => by
    have ha : p a = true := h a (List.mem_cons_self a l)
    simp only [List.cons_append, List.takeWhile_cons, ha, if_true]
    rw [takeWhile_append_all p l r (fun c hc => h c (List.mem_cons_of_mem a hc))]

theorem dropWhile_append_all {α : Type} (p : α → Bool) :
    ∀ (l r : List α), (∀ c ∈ l, p c = true) → (l ++ r).dropWhile p = r.dropWhile p
  | [], _, _ => rfl
  | a :: l, r, h => by
    have ha : p a = true := h a (List.mem_cons_self a l)
    simp only [List.cons_append, List.dropWhile_cons, ha, if_true]
    exact dropWhile_append_all p l r (fun c hc => h c (List.mem_cons_of_mem a hc))

theorem takeWhile_cons_neg {α : Type} (p : α → Bool) (a : α) (l : List α) (h : p a = false) :
    (a :: l).takeWhile p = [] := by
  simp [List.takeWhile_cons, h]

theorem dropWhile_cons_neg {α : Type} (p : α → Bool) (a : α) (l : List α) (h : p a = false) :
    (a :: l).dropWhile p = a :: l := by
  simp [List.dropWhile_cons, h]

theorem mem_takeWhile_pred {α : Type} (p : α → Bool) :
    ∀ (l : List α) (a : α), a ∈ l.takeWhile p → p a = true
  | [], a, h => absurd h (List.not_mem_nil a)
  | b :: l, a, h => by
    cases hb : p b with
    | false =>
      rw [takeWhile_cons_neg p b l hb] at h
      exact absurd h (List.not_mem_nil a)
    | true =>
      rw [List.takeWhile_cons, hb, if_pos rfl] at h
      rcases List.mem_cons.mp h with rfl | h'
      · exact hb
      · exact mem_takeWhile_pred p l a h'

theorem mk_ne_empty (l : List Char) (h : l ≠ []) : String.mk l ≠ "" := by
  intro he
  exact h (congrArg String.data he)

theorem word_ne (c : Char) (h : isPyWord c = true) (d : Char) (hd : isPyWord d = false) :
    c ≠ d := by
  intro he
  subst he
  rw [hd] at h
  exact Bool.false_ne_true h

theorem word_not_space (c : Char) (h : isPyWord c = true) : isPySpace c = false := by
  cases hs : isPySpace c
  · rfl
  · exfalso
    simp only [isPySpace, Bool.or_eq_true, beq_iff_eq] at hs
    rcases hs with ((((rfl | rfl) | rfl) | rfl) | rfl) | rfl <;> exact absurd h (by decide)

theorem space_ne_slash (c : Char) (h : isPySpace c = true) : c ≠ '/' := by
  intro he
  subst he
  exact absurd h (by decide)

/-! ### Evaluation lemmas for the pattern components -/

theorem lit_append_self : ∀ (l cs : List Char), lit l (l ++ cs) = some cs
  | [], _ => rfl
  | a :: l, cs => by
    simp only [List.cons_append, lit, if_pos rfl]
    exact lit_append_self l cs

theorem spaces1_space (c : Char) (cs : List Char) (h : isPySpace c = true) :
    spaces1 (c :: cs) = some (cs.dropWhile isPySpace) := by
  simp [spaces1, h]

theorem dropWhile_space_past_word (w x : List Char) (hw : w ≠ [])
    (hall : ∀ c ∈ w, isPyWord c = true) :
    (w ++ x).dropWhile isPySpace = w ++ x := by
  obtain ⟨a, t, rfl⟩ := List.exists_cons_of_ne_nil hw
  simp only [List.cons_append]
  exact dropWhile_cons_neg isPySpace a (t ++ x)
    (word_not_space a (hall a (List.mem_cons_self a t)))

theorem word1_ne_nil {cs w r : List Char} (h : word1 cs = some (w, r)) : w ≠ [] := by
  unfold word1 at h
  cases ht : cs.takeWhile isPyWord with
  | nil =>
    rw [ht] at h
    exact absurd h (by simp)
  | cons a t =>
    rw [ht] at h
    injection h with h'
    injection h' with h1 _
    intro hnil
    rw [← h1] at hnil
    exact List.cons_ne_nil a t hnil

theorem word1_before_paren (w r : List Char) (hw : w ≠ [])
    (hall : ∀ c ∈ w, isPyWord c = true) :
    word1 (w ++ '\x28' :: r) = some (w, '\x28' :: r) := by
  have ht : (w ++ '\x28' :: r).takeWhile isPyWord = w := by
    rw [takeWhile_append_all isPyWord w _ hall,
        takeWhile_cons_neg isPyWord '\x28' r (by decide), List.append_nil]
  have hd : (w ++ '\x28' :: r).dropWhile isPyWord = '\x28' :: r := by
    rw [dropWhile_append_all isPyWord w _ hall,
        dropWhile_cons_neg isPyWord '\x28' r (by decide)]
  unfold word1
  rw [ht, hd]
  cases w with
  | nil => exact absurd rfl hw
  | cons a t => rfl

theorem uptoClose_clean :
    ∀ (p r : List Char), (∀ c ∈ p, c ≠ '\x29' ∧ c ≠ '\n') →
      uptoClose (p ++ '\x29' :: r) = some (p, r)
  | [], r, _ => by simp [uptoClose]
  | a :: p, r, h => by
    obtain ⟨h1, h2⟩ := h a (List.mem_cons_self a p)
    show uptoClose (a :: (p ++ '\x29' :: r)) = some (a :: p, r)
    simp only [uptoClose, if_neg h1, if_neg h2]
    rw [uptoClose_clean p r (fun c hc => h c (List.mem_cons_of_mem a hc))]

theorem close_decomp :
    ∀ (P : List Char), '\x29' ∈ P →
      ∃ B, P = P.takeWhile (fun c => c != '\x29') ++ '\x29' :: B
  | [], h => absurd h (List.not_mem_nil _)
  | c :: P, h => by
    by_cases hc : c = '\x29'
    · subst hc
      refine ⟨P, ?_⟩
      rw [takeWhile_cons_neg _ _ _ (by decide)]
      rfl
    · have h' : '\x29' ∈ P := by
        rcases List.mem_cons.mp h with he | h'
        · exact absurd he.symm hc
        · exact h'
      obtain ⟨B, hB⟩ := close_decomp P h'
      refine ⟨B, ?_⟩
      have hcb : (c != '\x29') = true := by
        simp only [bne_iff_ne, ne_eq]
        exact hc
      rw [List.takeWhile_cons, hcb, if_pos rfl, List.cons_append]
      exact congrArg (c :: ·) hB

/-! ### Evaluation lemmas for the comment group -/

theorem scanComment_not_slash (c : Char) (cs : List Char) (h : c ≠ '/') :
    scanComment (c :: cs) = none := by
  cases cs with
  | nil => rfl
  | cons c2 t =>
    simp only [scanComment]
    rw [if_neg (fun hc => h hc.1)]

theorem scanComment_comment (body rest : List Char) (h : '\n' ∉ body) :
    scanComment ('/' :: '/' :: (body ++ '\n' :: rest)) =
      some ('/' :: '/' :: (body ++ ['\n']), rest) := by
  have hall : ∀ c ∈ body, (c != '\n') = true := by
    intro c hc
    simp only [bne_iff_ne, ne_eq]
    intro he
    exact h (he ▸ hc)
  have hdrop : (body ++ '\n' :: rest).dropWhile (fun c => c != '\n') = '\n' :: rest := by
    rw [dropWhile_append_all _ body _ hall, dropWhile_cons_neg _ _ _ (by decide)]
  have htake : (body ++ '\n' :: rest).takeWhile (fun c => c != '\n') = body := by
    rw [takeWhile_append_all _ body _ hall, takeWhile_cons_neg _ _ _ (by decide),
        List.append_nil]
  simp only [scanComment]
  rw [if_pos (show True ∧ True from ⟨trivial, trivial⟩), hdrop, htake]

theorem scanCommentsAux_stop (fuel : Nat) (cs : List Char) (h : scanComment cs = none) :
    scanCommentsAux fuel cs = (none, cs) := by
  cases fuel with
  | zero => rfl
  | succ n => simp [scanCommentsAux, h]

theorem scanComments_stop (cs : List Char) (h : scanComment cs = none) :
    scanComments cs = (none, cs) :=
  scanCommentsAux_stop _ _ h

theorem scanCommentsAux_block :
    ∀ (ls : List (List Char)) (lastLine r : List Char) (fuel : Nat),
      (∀ l ∈ ls ++ [lastLine], ∃ b, l = '/' :: '/' :: b ∧ '\n' ∉ b) →
      scanComment r = none →
      (commentBlock (ls ++ [lastLine]) ++ r).length < fuel →
      scanCommentsAux fuel (commentBlock (ls ++ [lastLine]) ++ r) =
        (some (lastLine ++ ['\n']), r)
  | [], lastLine, r, fuel, h, hr, hlen => by
    obtain ⟨b, hb, hbn⟩ := h lastLine (List.mem_cons_self _ _)
    subst hb
    have hshape : commentBlock ([] ++ [('/' :: '/' :: b)]) ++ r
        = '/' :: '/' :: (b ++ '\n' :: r) := by
      simp [commentBlock]
    rw [hshape] at hlen ⊢
    cases fuel with
    | zero => exact absurd hlen (by omega)
    | succ n =>
      simp only [scanCommentsAux, scanComment_comment b r hbn,
                 scanCommentsAux_stop n r hr]
      simp
  | l :: ls, lastLine, r, fuel, h, hr, hlen => by
    obtain ⟨b, hb, hbn⟩ := h l (List.mem_cons_self _ _)
    subst hb
    have hshape : commentBlock ((('/' :: '/' :: b) :: ls) ++ [lastLine]) ++ r
        = '/' :: '/' :: (b ++ '\n' :: (commentBlock (ls ++ [lastLine]) ++ r)) := by
      simp [commentBlock]
    rw [hshape] at hlen ⊢
    cases fuel with
    | zero => exact absurd hlen (by omega)
    | succ n =>
      have hlen' : (commentBlock (ls ++ [lastLine]) ++ r).length < n := by
        simp only [List.length_cons, List.length_append] at hlen ⊢
        omega
      have hih := scanCommentsAux_block ls lastLine r n
        (fun x hx => h x (List.mem_cons_of_mem _ hx)) hr hlen'
      simp only [scanCommentsAux, scanComment_comment b _ hbn, hih]

theorem scanComments_block (ls : List (List Char)) (lastLine r : List Char)
    (h : ∀ l ∈ ls ++ [lastLine], ∃ b, l = '/' :: '/' :: b ∧ '\n' ∉ b)
    (hr : scanComment r = none) :
    scanComments (commentBlock (ls ++ [lastLine]) ++ r) = (some (lastLine ++ ['\n']), r) :=
  scanCommentsAux_block ls lastLine r _ h hr (Nat.lt_succ_self _)

/-! ### Evaluation lemmas for the function pattern -/

theorem nameParams_eval (w rest p r : List Char) (hw : w ≠ [])
    (hall : ∀ c ∈ w, isPyWord c = true)
    (hu : uptoClose rest = some (p, r)) :
    nameParams (w ++ '\x28' :: rest) = some (String.mk w, String.mk p, r) := by
  simp only [nameParams, word1_before_paren w rest hw hall,
             dropWhile_cons_neg isPySpace '\x28' rest (by decide), hu]
  exact if_pos trivial

theorem funcTail_eval (w rest p r : List Char) (hw : w ≠ [])
    (hall : ∀ c ∈ w, isPyWord c = true)
    (hu : uptoClose rest = some (p, r)) :
    funcTail (w ++ '\x28' :: rest) = some (String.mk w, String.mk p, r) := by
  obtain ⟨a, t, rfl⟩ := List.exists_cons_of_ne_nil hw
  have ha : isPyWord a = true := hall a (List.mem_cons_self a t)
  have hane : a ≠ '\x28' := word_ne a ha '\x28' (by decide)
  show funcTail (a :: (t ++ '\x28' :: rest)) = some (String.mk (a :: t), String.mk p, r)
  simp only [funcTail, if_neg hane]
  exact nameParams_eval (a :: t) rest p r (List.cons_ne_nil a t) hall hu

theorem matchFuncHere_eval (cs : List Char) (docOpt : Option (List Char))
    (r1 w rest p r : List Char)
    (hsc : scanComments cs = (docOpt, r1))
    (hdw : r1.dropWhile isPySpace = 'f' :: 'u' :: 'n' :: 'c' :: ' ' :: (w ++ '\x28' :: rest))
    (hw : w ≠ []) (hall : ∀ c ∈ w, isPyWord c = true)
    (hu : uptoClose rest = some (p, r)) :
    matchFuncHere cs =
      some ({ doc := docOpt.map (fun d => String.mk d), name := String.mk w,
              params := String.mk p }, r) := by
  have hlit : lit ['f', 'u', 'n', 'c'] ('f' :: 'u' :: 'n' :: 'c' :: ' ' :: (w ++ '\x28' :: rest))
      = some (' ' :: (w ++ '\x28' :: rest)) := lit_append_self ['f', 'u', 'n', 'c'] _
  have hsp : spaces1 (' ' :: (w ++ '\x28' :: rest)) = some (w ++ '\x28' :: rest) := by
    rw [spaces1_space ' ' _ (by decide), dropWhile_space_past_word w _ hw hall]
  simp only [matchFuncHere, hsc, hdw, hlit, hsp, funcTail_eval w rest p r hw hall hu]

theorem funcFinditer_cons (cs : List Char) (m : FuncMatch) (rest : List Char)
    (h : matchFuncHere cs = some (m, rest)) :
    funcFinditer cs = m :: funcFinditerAux cs.length rest := by
  simp only [funcFinditer, funcFinditerAux, h]

/-! ### The identifier capture is never empty -/

theorem nameParams_name_ne {cs : List Char} {n p : String} {r : List Char}
    (h : nameParams cs = some (n, p, r)) : n ≠ "" := by
  unfold nameParams at h
  cases hw : word1 cs with
  | none => simp only [hw] at h; exact absurd h (by simp)
  | some wr =>
    obtain ⟨w, r1⟩ := wr
    simp only [hw] at h
    cases hd : r1.dropWhile isPySpace with
    | nil => simp only [hd] at h; exact absurd h (by simp)
    | cons c r2 =>
      simp only [hd] at h
      by_cases hc : c = '\x28'
      · rw [if_pos hc] at h
        cases hu : uptoClose r2 with
        | none => simp only [hu] at h; exact absurd h (by simp)
        | some pr =>
          obtain ⟨p', r3⟩ := pr
          simp only [hu] at h
          injection h with h'
          injection h' with h1 _
          rw [← h1]
          exact mk_ne_empty w (word1_ne_nil hw)
      · rw [if_neg hc] at h
        exact absurd h (by simp)

theorem afterRecv_name_ne :
    ∀ {cs : List Char} {n p : String} {r : List Char},
      afterRecv cs = some (n, p, r) → n ≠ "" := by
  intro cs
  induction cs with
  | nil => intro n p r h; exact absurd h (by simp [afterRecv])
  | cons c t ih =>
    intro n p r h
    simp only [afterRecv] at h
    by_cases hc : c = '\x29'
    · rw [if_pos hc] at h
      cases hs : spaces1 t with
      | none => simp only [hs] at h; exact ih h
      | some r' =>
        simp only [hs] at h
        cases hn : nameParams r' with
        | none => simp only [hn] at h; exact ih h
        | some res =>
          obtain ⟨n', p', r''⟩ := res
          simp only [hn] at h
          injection h with h'
          injection h' with e1 _
          subst e1
          exact nameParams_name_ne hn
    · rw [if_neg hc] at h
      by_cases hnl : c = '\n'
      · rw [if_pos hnl] at h; exact absurd h (by simp)
      · rw [if_neg hnl] at h; exact ih h

theorem funcTail_name_ne {cs : List Char} {n p : String} {r : List Char}
    (h : funcTail cs = some (n, p, r)) : n ≠ "" := by
  cases cs with
  | nil => exact absurd h (by simp [funcTail])
  | cons c t =>
    simp only [funcTail] at h
    by_cases hc : c = '\x28'
    · rw [if_pos hc] at h
      cases ha : afterRecv t with
      | none => simp only [ha] at h; exact nameParams_name_ne h
      | some res =>
        obtain ⟨n', p', r'⟩ := res
        simp only [ha] at h
        injection h with h'
        injection h' with e1 _
        subst e1
        exact afterRecv_name_ne ha
    · rw [if_neg hc] at h
      exact nameParams_name_ne h

theorem matchFuncHere_name_ne {cs : List Char} {m : FuncMatch} {rest : List Char}
    (h : matchFuncHere cs = some (m, rest)) : m.name ≠ "" := by
  unfold matchFuncHere at h
  cases hl : lit ['f', 'u', 'n', 'c'] (((scanComments cs).2).dropWhile isPySpace) with
  | none => simp only [hl] at h; exact absurd h (by simp)
  | some r2 =>
    simp only [hl] at h
    cases hs : spaces1 r2 with
    | none => simp only [hs] at h; exact absurd h (by simp)
    | some r3 =>
      simp only [hs] at h
      cases ht : funcTail r3 with
      | none => simp only [ht] at h; exact absurd h (by simp)
      | some res =>
        obtain ⟨n, p, r⟩ := res
        simp only [ht] at h
        injection h with h'
        injection h' with e1 _
        rw [← e1]
        exact funcTail_name_ne ht

theorem funcFinditerAux_name_ne :
    ∀ (fuel : Nat) (cs : List Char) (m : FuncMatch),
      m ∈ funcFinditerAux fuel cs → m.name ≠ ""
  | 0, _, m, h => absurd h (List.not_mem_nil m)
  | fuel + 1, cs, m, h => by
    simp only [funcFinditerAux] at h
    cases hm : matchFuncHere cs with
    | some pr =>
      obtain ⟨m0, rest⟩ := pr
      rw [hm] at h
      rcases List.mem_cons.mp h with rfl | h'
      · exact matchFuncHere_name_ne hm
      · exact funcFinditerAux_name_ne fuel rest m h'
    | none =>
      rw [hm] at h
      cases cs with
      | nil => exact absurd h (List.not_mem_nil m)
      | cons c t => exact funcFinditerAux_name_ne fuel t m h

/-! ### The struct identifier capture is never empty -/

theorem matchStructHere_name_ne {cs : List Char} {m : StructMatch} {rest : List Char}
    (h : matchStructHere cs = some (m, rest)) : m.name ≠ "" := by
  unfold matchStructHere at h
  cases hl : lit ['t', 'y', 'p', 'e'] (((scanComments cs).2).dropWhile isPySpace) with
  | none => simp only [hl] at h; exact absurd h (by simp)
  | some r2 =>
    simp only [hl] at h
    cases hs : spaces1 r2 with
    | none => simp only [hs] at h; exact absurd h (by simp)
    | some r3 =>
      simp only [hs] at h
      cases hw : word1 r3 with
      | none => simp only [hw] at h; exact absurd h (by simp)
      | some wr =>
        obtain ⟨w, r4⟩ := wr
        simp only [hw] at h
        cases hs2 : spaces1 r4 with
        | none => simp only [hs2] at h; exact absurd h (by simp)
        | some r5 =>
          simp only [hs2] at h
          cases hl2 : lit ['s', 't', 'r', 'u', 'c', 't'] r5 with
          | none => simp only [hl2] at h; exact absurd h (by simp)
          | some r6 =>
            simp only [hl2] at h
            cases hd : r6.dropWhile isPySpace with
            | nil => simp only [hd] at h; exact absurd h (by simp)
            | cons c rest2 =>
              simp only [hd] at h
              by_cases hc : c = '\x7b'
              · rw [if_pos hc] at h
                injection h with h'
                injection h' with e1 _
                rw [← e1]
                exact mk_ne_empty w (word1_ne_nil hw)
              · rw [if_neg hc] at h
                exact absurd h (by simp)

theorem structFinditerAux_name_ne :
    ∀ (fuel : Nat) (cs : List Char) (m : StructMatch),
      m ∈ structFinditerAux fuel cs → m.name ≠ ""
  | 0, _, m, h => absurd h (List.not_mem_nil m)
  | fuel + 1, cs, m, h => by
    simp only [structFinditerAux] at h
    cases hm : matchStructHere cs with
    | some pr =>
      obtain ⟨m0, rest⟩ := pr
      rw [hm] at h
      rcases List.mem_cons.mp h with rfl | h'
      · exact matchStructHere_name_ne hm
      · exact structFinditerAux_name_ne fuel rest m h'
    | none =>
      rw [hm] at h
      cases cs with
      | nil => exact absurd h (List.not_mem_nil m)
      | cons c t => exact structFinditerAux_name_ne fuel t m h

/-! ### Shape of the records in the accumulator -/

theorem mem_extract {p c : String} {r : SymbolRecord}
    (h : r ∈ extract_go_symbols p c) :
    r.source_file = p ∧ r.name ≠ "" ∧
      (r.type = "function" ∨ (r.type = "struct" ∧ r.params = "")) := by
  unfold extract_go_symbols at h
  rcases List.mem_append.mp h with hf | hs
  · obtain ⟨m, hm, rfl⟩ := List.mem_map.mp hf
    exact ⟨rfl, funcFinditerAux_name_ne _ _ m hm, Or.inl rfl⟩
  · obtain ⟨m, hm, rfl⟩ := List.mem_map.mp hs
    exact ⟨rfl, structFinditerAux_name_ne _ _ m hm, Or.inr ⟨rfl, rfl⟩⟩

theorem mem_collect :
    ∀ {es : List FileEntry} {r : SymbolRecord}, r ∈ collect es →
      ∃ e, e ∈ es ∧ pyEndsWith e.name ".go" = true ∧
        r ∈ extract_go_symbols (osPathJoin e.dir e.name) e.content := by
  intro es
  induction es with
  | nil => intro r h; exact absurd h (List.not_mem_nil r)
  | cons e es ih =>
    intro r h
    simp only [collect] at h
    rcases List.mem_append.mp h with h1 | h2
    · by_cases hg : pyEndsWith e.name ".go" = true
      · rw [if_pos hg] at h1
        exact ⟨e, List.mem_cons_self e es, hg, h1⟩
      · rw [if_neg hg] at h1
        exact absurd h1 (List.not_mem_nil r)
    · obtain ⟨e', he', hg, hr⟩ := ih h2
      exact ⟨e', List.mem_cons_of_mem e he', hg, hr⟩

theorem pyEndsWith_go_ne (s : String) (h : pyEndsWith s ".go" = true) : s ≠ "" := by
  intro he
  subst he
  exact absurd h (by decide)

theorem str_eq_empty_of_data (s : String) (h : s.data = []) : s = "" := by
  cases s with
  | mk d =>
    have hd : d = [] := h
    subst hd
    rfl

theorem append_ne_empty_left (a b : String) (ha : a ≠ "") : a ++ b ≠ "" := by
  intro h
  have hd : (a ++ b).data = [] := by rw [h]
  rw [String.data_append] at hd
  exact ha (str_eq_empty_of_data a (List.append_eq_nil.mp hd).1)

theorem osPathJoin_ne_empty (a b : String) (hb : b ≠ "") : osPathJoin a b ≠ "" := by
  unfold osPathJoin
  by_cases h1 : b.data.head? = some '/'
  · rw [if_pos h1]; exact hb
  · rw [if_neg h1]
    by_cases h2 : a = ""
    · rw [if_pos h2]; exact hb
    · rw [if_neg h2]
      by_cases h3 : a.data.getLast? = some '/'
      · rw [if_pos h3]
        exact append_ne_empty_left a b h2
      · rw [if_neg h3]
        exact append_ne_empty_left (a ++ "/") b (append_ne_empty_left a "/" h2)

theorem go_chunks_shape {fs : Filesystem} {r : SymbolRecord} (h : r ∈ go_chunks fs) :
    r.name ≠ "" ∧ r.source_file ≠ "" ∧
      (r.type = "function" ∨ (r.type = "struct" ∧ r.params = "")) := by
  obtain ⟨e, he, hg, hr⟩ := mem_collect h
  obtain ⟨hsrc, hname, htyp⟩ := mem_extract hr
  refine ⟨hname, ?_, htyp⟩
  rw [hsrc]
  exact osPathJoin_ne_empty e.dir e.name (pyEndsWith_go_ne e.name hg)

/-! ### Heads and filters of the extracted record list -/

theorem extract_head (fp content : String) (m : FuncMatch) (rest : List Char)
    (h : matchFuncHere content.data = some (m, rest)) :
    (extract_go_symbols fp content).head? = some (mkFuncRecord fp m) := by
  unfold extract_go_symbols
  rw [funcFinditer_cons content.data m rest h]
  rfl

theorem filter_map_const {α β : Type} (q : β → Bool) (f : α → β)
    (hq : ∀ x, q (f x) = true) : ∀ l : List α, (l.map f).filter q = l.map f
  | [] => rfl
  | a :: l => by
    simp only [List.map_cons, List.filter_cons, hq a, if_true]
    rw [filter_map_const q f hq l]

theorem filter_map_none {α β : Type} (q : β → Bool) (f : α → β)
    (hq : ∀ x, q (f x) = false) : ∀ l : List α, (l.map f).filter q = []
  | [] => rfl
  | a :: l => by
    simp only [List.map_cons, List.filter_cons, hq a]
    exact filter_map_none q f hq l

/-! ### The claims -/

/-- C1 counterexample: a function declaration preceded by the two comment
lines, one and two, with no blank line in between, yields a doc field
holding ONLY the second comment line: the first line does not occur in the
doc at all, refuting the claim that the doc contains all comment lines. -/
theorem c1_counterexample :
    extract_go_symbols "backend/a.go" "// one\n// two\nfunc F(a int) \x7b\x7d" =
      [{ type := "function", name := "F", params := "a int", doc := "// two",
         source_file := "backend/a.go" }] ∧
    ¬ (['o', 'n', 'e'] <:+: "// two".data) :=
  ⟨rfl, by decide⟩

/-- C1 (amended): for every function declaration immediately preceded by two
or more consecutive full-line comments with no blank line in between, the doc
field of the resulting record is the LAST of those comment lines (stripped),
because a Python starred capture group keeps only its final iteration; no
declaration text leaks into doc. -/
theorem c1_amended_doc_is_last_comment
    (fp : String) (ls : List (List Char)) (lastLine w P t : List Char)
    (_hnum : 1 ≤ ls.length)
    (hcom : ∀ l ∈ ls ++ [lastLine], ∃ b, l = '/' :: '/' :: b ∧ '\n' ∉ b)
    (hw : w ≠ []) (hword : ∀ c ∈ w, isPyWord c = true)
    (hP : ∀ c ∈ P, c ≠ '\x29' ∧ c ≠ '\n') :
    (extract_go_symbols fp (String.mk (commentBlock (ls ++ [lastLine]) ++
        ('f' :: 'u' :: 'n' :: 'c' :: ' ' :: (w ++ '\x28' :: (P ++ '\x29' :: t)))))).head? =
      some { type := "function", name := String.mk w, params := String.mk P,
             doc := pystrip (String.mk (lastLine ++ ['\n'])), source_file := fp } := by
  have hsc : scanComments (commentBlock (ls ++ [lastLine]) ++
      ('f' :: 'u' :: 'n' :: 'c' :: ' ' :: (w ++ '\x28' :: (P ++ '\x29' :: t)))) =
      (some (lastLine ++ ['\n']),
       'f' :: 'u' :: 'n' :: 'c' :: ' ' :: (w ++ '\x28' :: (P ++ '\x29' :: t))) :=
    scanComments_block ls lastLine _ hcom (scanComment_not_slash 'f' _ (by decide))
  have hdw : ('f' :: 'u' :: 'n' :: 'c' :: ' ' :: (w ++ '\x28' :: (P ++ '\x29' :: t))).dropWhile
      isPySpace = 'f' :: 'u' :: 'n' :: 'c' :: ' ' :: (w ++ '\x28' :: (P ++ '\x29' :: t)) :=
    dropWhile_cons_neg isPySpace 'f' _ (by decide)
  have hu : uptoClose (P ++ '\x29' :: t) = some (P, t) := uptoClose_clean P t hP
  have hm := matchFuncHere_eval _ (some (lastLine ++ ['\n'])) _ w (P ++ '\x29' :: t) P t
    hsc hdw hw hword hu
  rw [extract_head fp _ _ t hm]
  rfl

/-- C1 witness: two comment lines, one and two, directly above the
declaration of F; the doc field is the stripped second line. -/
theorem c1_witness :
    (1 ≤ ([['/', '/', ' ', 'o', 'n', 'e']] : List (List Char)).length) ∧
    (extract_go_symbols "backend/a.go" (String.mk (commentBlock
        ([['/', '/', ' ', 'o', 'n', 'e']] ++ [['/', '/', ' ', 't', 'w', 'o']]) ++
        ('f' :: 'u' :: 'n' :: 'c' :: ' ' :: (['F'] ++ '\x28' ::
          (['a', ' ', 'i', 'n', 't'] ++ '\x29' :: [' ', '\x7b', '\x7d'])))))).head?
      = some (SymbolRecord.mk "function" "F" "a int" "// two" "backend/a.go") := by
  constructor
  · decide
  · have h := c1_amended_doc_is_last_comment "backend/a.go"
      [['/', '/', ' ', 'o', 'n', 'e']] ['/', '/', ' ', 't', 'w', 'o']
      ['F'] ['a', ' ', 'i', 'n', 't'] [' ', '\x7b', '\x7d']
      (by decide)
      (by
        intro l hl
        rcases List.mem_cons.mp hl with rfl | hl2
        · exact ⟨[' ', 'o', 'n', 'e'], rfl, by decide⟩
        · rcases List.mem_cons.mp hl2 with rfl | hl3
          · exact ⟨[' ', 't', 'w', 'o'], rfl, by decide⟩
          · exact absurd hl3 (List.not_mem_nil l))
      (by decide) (by decide) (by decide)
    exact h.trans (by decide)

/-- C2 counterexample: with the root directory missing or unreadable, the
run does not abort: it exits 0 and still writes an output file whose content
is the empty JSON array, refuting the claim of a fatal error before any
output is written. -/
theorem c2_counterexample :
    (runProgram (Filesystem.mk false
        [FileEntry.mk "backend" "a.go" "func F(x int) \x7b\x7d"])).exitCode = 0 ∧
    (runProgram (Filesystem.mk false
        [FileEntry.mk "backend" "a.go" "func F(x int) \x7b\x7d"])).written =
      some (Json.arr []) :=
  ⟨rfl, rfl⟩

/-- C2 (amended): a missing or unreadable root directory is silently
swallowed by os.walk (default onerror of None): the walk yields no files,
the run completes with exit code 0 and writes an output file containing the
empty JSON array. -/
theorem c2_amended_missing_root_silent_empty (entries : List FileEntry) :
    runProgram (Filesystem.mk false entries) =
      RunResult.mk 0 (some (Json.arr [])) :=
  rfl

/-- C3 counterexample: a blank line separates the comment from the
declaration of F, yet the doc field is the comment, not the empty string:
the whitespace star of the pattern absorbs blank lines, refuting the claim
that the comment is not attached. -/
theorem c3_counterexample :
    extract_go_symbols "backend/a.go" "// c\n\nfunc F(a int) \x7b\x7d" =
      [SymbolRecord.mk "function" "F" "a int" "// c" "backend/a.go"] ∧
    ("// c" : String) ≠ "" :=
  ⟨rfl, by decide⟩

/-- C3 (amended): a full-line comment separated from a following function
declaration by whitespace only, including any number of blank lines, IS
attached: the doc field is the stripped comment line, because the whitespace
star between the comment group and the keyword also matches newlines. -/
theorem c3_amended_blank_line_still_attaches
    (fp : String) (b ws w P t : List Char)
    (hb : '\n' ∉ b) (hws : ∀ c ∈ ws, isPySpace c = true)
    (hw : w ≠ []) (hword : ∀ c ∈ w, isPyWord c = true)
    (hP : ∀ c ∈ P, c ≠ '\x29' ∧ c ≠ '\n') :
    (extract_go_symbols fp (String.mk (('/' :: '/' :: b) ++ '\n' :: (ws ++
        ('f' :: 'u' :: 'n' :: 'c' :: ' ' :: (w ++ '\x28' :: (P ++ '\x29' :: t))))))).head? =
      some { type := "function", name := String.mk w, params := String.mk P,
             doc := pystrip (String.mk (('/' :: '/' :: b) ++ ['\n'])), source_file := fp } := by
  have hr : scanComment (ws ++
      ('f' :: 'u' :: 'n' :: 'c' :: ' ' :: (w ++ '\x28' :: (P ++ '\x29' :: t)))) = none := by
    cases hws0 : ws with
    | nil => exact scanComment_not_slash 'f' _ (by decide)
    | cons c ws2 =>
      exact scanComment_not_slash c _
        (space_ne_slash c (hws c (by rw [hws0]; exact List.mem_cons_self c ws2)))
  have hsc : scanComments (('/' :: '/' :: b) ++ '\n' :: (ws ++
      ('f' :: 'u' :: 'n' :: 'c' :: ' ' :: (w ++ '\x28' :: (P ++ '\x29' :: t))))) =
      (some (('/' :: '/' :: b) ++ ['\n']),
       ws ++ ('f' :: 'u' :: 'n' :: 'c' :: ' ' :: (w ++ '\x28' :: (P ++ '\x29' :: t)))) := by
    have hshape : commentBlock ([] ++ [('/' :: '/' :: b)]) ++ (ws ++
        ('f' :: 'u' :: 'n' :: 'c' :: ' ' :: (w ++ '\x28' :: (P ++ '\x29' :: t)))) =
        ('/' :: '/' :: b) ++ '\n' :: (ws ++
        ('f' :: 'u' :: 'n' :: 'c' :: ' ' :: (w ++ '\x28' :: (P ++ '\x29' :: t)))) := by
      simp [commentBlock]
    rw [← hshape]
    exact scanComments_block [] ('/' :: '/' :: b) _
      (by
        intro l hl
        rcases List.mem_cons.mp hl with rfl | hl2
        · exact ⟨b, rfl, hb⟩
        · exact absurd hl2 (List.not_mem_nil l))
      hr
  have hdw : (ws ++ ('f' :: 'u' :: 'n' :: 'c' :: ' ' ::
      (w ++ '\x28' :: (P ++ '\x29' :: t)))).dropWhile isPySpace =
      'f' :: 'u' :: 'n' :: 'c' :: ' ' :: (w ++ '\x28' :: (P ++ '\x29' :: t)) := by
    rw [dropWhile_append_all isPySpace ws _ hws, dropWhile_cons_neg isPySpace 'f' _ (by decide)]
  have hu : uptoClose (P ++ '\x29' :: t) = some (P, t) := uptoClose_clean P t hP
  have hm := matchFuncHere_eval _ (some (('/' :: '/' :: b) ++ ['\n'])) _ w
    (P ++ '\x29' :: t) P t hsc hdw hw hword hu
  rw [extract_head fp _ _ t hm]
  rfl

/-- C3 witness: the comment line c sits two blank newlines above the
declaration of F and is still attached as the doc. -/
theorem c3_witness :
    ('\n' ∉ [' ', 'c']) ∧
    (extract_go_symbols "backend/a.go" (String.mk (('/' :: '/' :: [' ', 'c']) ++ '\n' ::
        (['\n', '\n'] ++ ('f' :: 'u' :: 'n' :: 'c' :: ' ' :: (['F'] ++ '\x28' ::
          (['a', ' ', 'i', 'n', 't'] ++ '\x29' :: [' ', '\x7b', '\x7d']))))))).head?
      = some (SymbolRecord.mk "function" "F" "a int" "// c" "backend/a.go") := by
  constructor
  · decide
  · have h := c3_amended_blank_line_still_attaches "backend/a.go"
      [' ', 'c'] ['\n', '\n'] ['F'] ['a', ' ', 'i', 'n', 't'] [' ', '\x7b', '\x7d']
      (by decide) (by decide) (by decide) (by decide) (by decide)
    exact h.trans (by decide)

/-- C4 counterexample: in this file the struct declaration of A precedes the
function declaration of B in the text, but the output lists the function
record first, because the two regex passes run one after the other; record
order is not text match order for mixed declarations. -/
theorem c4_counterexample :
    extract_go_symbols "backend/a.go" "type A struct \x7b\nfunc B(x int) \x7b\x7d\n" =
      [SymbolRecord.mk "function" "B" "x int" "" "backend/a.go",
       SymbolRecord.mk "struct" "A" "" "" "backend/a.go"] :=
  rfl

/-- C4 (amended): within one file, the records are all function pass matches
first, in their match order, followed by all struct pass matches, in their
match order; the two kinds are never interleaved by text position. -/
theorem c4_amended_two_pass_order (fp content : String) :
    extract_go_symbols fp content =
      (extract_go_symbols fp content).filter (fun r => r.type == "function") ++
        (extract_go_symbols fp content).filter (fun r => r.type == "struct") ∧
    (extract_go_symbols fp content).filter (fun r => r.type == "function") =
      (funcFinditer content.data).map (mkFuncRecord fp) ∧
    (extract_go_symbols fp content).filter (fun r => r.type == "struct") =
      (structFinditer content.data).map (mkStructRecord fp) := by
  have h2 : (extract_go_symbols fp content).filter (fun r => r.type == "function") =
      (funcFinditer content.data).map (mkFuncRecord fp) := by
    unfold extract_go_symbols
    rw [List.filter_append,
        filter_map_const (fun (r : SymbolRecord) => r.type == "function")
          (mkFuncRecord fp) (fun m => rfl),
        filter_map_none (fun (r : SymbolRecord) => r.type == "function")
          (mkStructRecord fp) (fun m => rfl),
        List.append_nil]
  have h3 : (extract_go_symbols fp content).filter (fun r => r.type == "struct") =
      (structFinditer content.data).map (mkStructRecord fp) := by
    unfold extract_go_symbols
    rw [List.filter_append,
        filter_map_none (fun (r : SymbolRecord) => r.type == "struct")
          (mkFuncRecord fp) (fun m => rfl),
        filter_map_const (fun (r : SymbolRecord) => r.type == "struct")
          (mkStructRecord fp) (fun m => rfl),
        List.nil_append]
  refine ⟨?_, h2, h3⟩
  rw [h2, h3]
  rfl

/-- C5: every walked file whose name ends in .go contributes exactly the
number of function pattern matches plus the number of struct pattern matches
of its content, and every other file contributes zero records; the total
length of the accumulator is the sum of these per file counts. -/
theorem c5_per_file_record_count (fs : Filesystem) :
    (go_chunks fs).length =
      ((walkFiles fs).map (fun e =>
        if pyEndsWith e.name ".go" = true
        then (funcFinditer e.content.data).length + (structFinditer e.content.data).length
        else 0)).sum := by
  unfold go_chunks
  induction walkFiles fs with
  | nil => rfl
  | cons e es ih =>
    simp only [collect, List.map_cons, List.sum_cons, List.length_append, ih]
    congr 1
    by_cases hg : pyEndsWith e.name ".go" = true
    · rw [if_pos hg, if_pos hg]
      simp [extract_go_symbols]
    · rw [if_neg hg, if_neg hg]
      rfl

/-- C6: the three line scenario file yields exactly two records: the
function record for Hello with its comment as doc, then the struct record
for Config with empty params and empty doc. -/
theorem c6_scenario (fp : String) :
    extract_go_symbols fp
        "// Greets the user\nfunc Hello(name string) string \x7b ... \x7d\ntype Config struct \x7b ... \x7d\n" =
      [SymbolRecord.mk "function" "Hello" "name string" "// Greets the user" fp,
       SymbolRecord.mk "struct" "Config" "" "" fp] :=
  rfl

/-- C7: every record in the final accumulator whose type is struct has an
empty params field, for every filesystem. -/
theorem c7_struct_params_empty (fs : Filesystem) (r : SymbolRecord)
    (h1 : r ∈ go_chunks fs) (h2 : r.type = "struct") : r.params = "" := by
  obtain ⟨-, -, htyp⟩ := go_chunks_shape h1
  rcases htyp with hf | ⟨-, hp⟩
  · rw [hf] at h2
    exact absurd h2 (by decide)
  · exact hp

/-- C7 witness: a concrete run over one struct declaration produces a struct
record, and its params field is empty. -/
theorem c7_witness :
    (SymbolRecord.mk "struct" "A" "" "" "backend/a.go" ∈
      go_chunks (Filesystem.mk true
        [FileEntry.mk "backend" "a.go" "type A struct \x7b\x7d"])) ∧
    (SymbolRecord.mk "struct" "A" "" "" "backend/a.go").type = "struct" ∧
    (SymbolRecord.mk "struct" "A" "" "" "backend/a.go").params = "" :=
  ⟨by decide, rfl,
   c7_struct_params_empty
     (Filesystem.mk true [FileEntry.mk "backend" "a.go" "type A struct \x7b\x7d"])
     (SymbolRecord.mk "struct" "A" "" "" "backend/a.go") (by decide) rfl⟩

/-- C8: the emitted JSON document is the array of the serialized records;
every serialized record is an object with exactly the five fields type,
name, params, doc, source_file in that order, it parses back to the record
it came from, and name and source_file are nonempty. -/
theorem c8_roundtrip_fields (fs : Filesystem) (r : SymbolRecord)
    (h : r ∈ go_chunks fs) :
    (runProgram fs).written = some (Json.arr ((go_chunks fs).map recordToJson)) ∧
    jsonFields (recordToJson r) = some ["type", "name", "params", "doc", "source_file"] ∧
    recordOfJson (recordToJson r) = some r ∧
    r.name ≠ "" ∧ r.source_file ≠ "" := by
  obtain ⟨hname, hsrc, -⟩ := go_chunks_shape h
  exact ⟨rfl, rfl, rfl, hname, hsrc⟩

/-- C8 witness: a concrete run with one function declaration; its record
serializes to the five field object, parses back and has nonempty name and
source path. -/
theorem c8_witness :
    (SymbolRecord.mk "function" "F" "x int" "" "backend/b.go" ∈
      go_chunks (Filesystem.mk true
        [FileEntry.mk "backend" "b.go" "func F(x int) \x7b\x7d"])) ∧
    ((runProgram (Filesystem.mk true
        [FileEntry.mk "backend" "b.go" "func F(x int) \x7b\x7d"])).written =
      some (Json.arr ((go_chunks (Filesystem.mk true
        [FileEntry.mk "backend" "b.go" "func F(x int) \x7b\x7d"])).map recordToJson)) ∧
     jsonFields (recordToJson (SymbolRecord.mk "function" "F" "x int" "" "backend/b.go")) =
       some ["type", "name", "params", "doc", "source_file"] ∧
     recordOfJson (recordToJson (SymbolRecord.mk "function" "F" "x int" "" "backend/b.go")) =
       some (SymbolRecord.mk "function" "F" "x int" "" "backend/b.go") ∧
     (SymbolRecord.mk "function" "F" "x int" "" "backend/b.go").name ≠ "" ∧
     (SymbolRecord.mk "function" "F" "x int" "" "backend/b.go").source_file ≠ "") :=
  ⟨by decide,
   c8_roundtrip_fields
     (Filesystem.mk true [FileEntry.mk "backend" "b.go" "func F(x int) \x7b\x7d"])
     (SymbolRecord.mk "function" "F" "x int" "" "backend/b.go") (by decide)⟩

/-- C9: when the parameter list text contains a closing parenthesis before
its true end, for instance a parameter of function type, the captured params
string is only the text before the FIRST closing parenthesis: a strict
prefix of the full parameter list text. -/
theorem c9_params_truncated_at_first_close
    (fp : String) (w P t : List Char)
    (hw : w ≠ []) (hword : ∀ c ∈ w, isPyWord c = true)
    (hmem : '\x29' ∈ P) (hnl : '\n' ∉ P) :
    ∃ r : SymbolRecord,
      (extract_go_symbols fp (String.mk ('f' :: 'u' :: 'n' :: 'c' :: ' ' ::
          (w ++ '\x28' :: (P ++ '\x29' :: t))))).head? = some r ∧
      r.params.data = P.takeWhile (fun c => c != '\x29') ∧
      r.params.data ≠ P ∧ (∃ u, r.params.data ++ u = P) := by
  obtain ⟨B, hB⟩ := close_decomp P hmem
  have hAclean : ∀ c ∈ P.takeWhile (fun c => c != '\x29'), c ≠ '\x29' ∧ c ≠ '\n' := by
    intro c hc
    constructor
    · have hcb := mem_takeWhile_pred _ _ _ hc
      simpa [bne_iff_ne] using hcb
    · intro he
      apply hnl
      rw [← he]
      rw [hB]
      exact List.mem_append_left _ hc
  have hu : uptoClose (P ++ '\x29' :: t) =
      some (P.takeWhile (fun c => c != '\x29'), B ++ '\x29' :: t) := by
    have e1 : P ++ '\x29' :: t =
        P.takeWhile (fun c => c != '\x29') ++ '\x29' :: (B ++ '\x29' :: t) := by
      conv_lhs => rw [hB]
      simp [List.append_assoc]
    rw [e1]
    exact uptoClose_clean _ _ hAclean
  have hsc : scanComments ('f' :: 'u' :: 'n' :: 'c' :: ' ' ::
      (w ++ '\x28' :: (P ++ '\x29' :: t))) =
      (none, 'f' :: 'u' :: 'n' :: 'c' :: ' ' :: (w ++ '\x28' :: (P ++ '\x29' :: t))) :=
    scanComments_stop _ (scanComment_not_slash 'f' _ (by decide))
  have hdw : ('f' :: 'u' :: 'n' :: 'c' :: ' ' ::
      (w ++ '\x28' :: (P ++ '\x29' :: t))).dropWhile isPySpace =
      'f' :: 'u' :: 'n' :: 'c' :: ' ' :: (w ++ '\x28' :: (P ++ '\x29' :: t)) :=
    dropWhile_cons_neg isPySpace 'f' _ (by decide)
  have hm := matchFuncHere_eval _ none _ w (P ++ '\x29' :: t)
    (P.takeWhile (fun c => c != '\x29')) (B ++ '\x29' :: t) hsc hdw hw hword hu
  refine ⟨_, extract_head fp _ _ _ hm, rfl, ?_, ⟨'\x29' :: B, ?_⟩⟩
  · intro he
    have he2 : P.takeWhile (fun c => c != '\x29') = P := he
    have hlen := congrArg List.length (he2.trans hB)
    rw [List.length_append, List.length_cons] at hlen
    omega
  · exact hB.symm

/-- C9 witness: the declaration of Apply has a function typed parameter; the
captured params text stops at the first closing parenthesis and is a strict
prefix of the full parameter list. -/
theorem c9_witness :
    (("g func(int) int, x int".data ≠ ([] : List Char) → True) ∧
     '\x29' ∈ "g func(int) int, x int".data ∧ '\n' ∉ "g func(int) int, x int".data) ∧
    (∃ r : SymbolRecord,
      (extract_go_symbols "backend/a.go" (String.mk ('f' :: 'u' :: 'n' :: 'c' :: ' ' ::
          (['A', 'p', 'p', 'l', 'y'] ++ '\x28' ::
            ("g func(int) int, x int".data ++ '\x29' :: [' ', '\x7b', '\x7d']))))).head? = some r ∧
      r.params.data = ("g func(int) int, x int".data).takeWhile (fun c => c != '\x29') ∧
      r.params.data ≠ "g func(int) int, x int".data ∧
      (∃ u, r.params.data ++ u = "g func(int) int, x int".data)) :=
  ⟨⟨fun _ => trivial, by decide, by decide⟩,
   c9_params_truncated_at_first_close "backend/a.go"
     ['A', 'p', 'p', 'l', 'y'] ("g func(int) int, x int".data) [' ', '\x7b', '\x7d']
     (by decide) (by decide) (by decide) (by decide)⟩

/-- C10: a file whose only text is a single line comment containing a
function declaration still yields a function record for Foo: the pattern
has no notion of being inside a comment, so a match starting after the
comment marker is reported. -/
theorem c10_commented_func_still_matches (fp : String) :
    extract_go_symbols fp "// func Foo(x int) \x7b\n" =
      [SymbolRecord.mk "function" "Foo" "x int" "" fp] :=
  rfl

/-! ### Fuel adequacy: the fuel arguments of the matchers never run out -/

theorem dropWhile_length_le {α : Type} (p : α → Bool) :
    ∀ l : List α, (l.dropWhile p).length ≤ l.length
  | [] => Nat.le_refl 0
  | a :: l => by
    rw [List.dropWhile_cons]
    cases h : p a with
    | false => simp
    | true =>
      simp only [if_pos rfl]
      exact Nat.le_succ_of_le (dropWhile_length_le p l)

theorem scanComment_length : ∀ {cs : List Char} {cm rest : List Char},
    scanComment cs = some (cm, rest) → rest.length < cs.length := by
  intro cs
  cases cs with
  | nil => intro cm rest h; exact absurd h (by simp [scanComment])
  | cons a cs1 =>
    cases cs1 with
    | nil => intro cm rest h; exact absurd h (by simp [scanComment])
    | cons b cs2 =>
      intro cm rest h
      simp only [scanComment] at h
      by_cases hab : a = '/' ∧ b = '/'
      · rw [if_pos hab] at h
        cases hd : cs2.dropWhile (fun c => c != '\n') with
        | nil => simp only [hd] at h; exact absurd h (by simp)
        | cons x tail =>
          simp only [hd] at h
          injection h with h'
          injection h' with e1 e2
          have hle : (x :: tail).length ≤ cs2.length := by
            rw [← hd]
            exact dropWhile_length_le _ cs2
          rw [← e2]
          simp only [List.length_cons] at hle ⊢
          omega
      · rw [if_neg hab] at h
        exact absurd h (by simp)

theorem scanCommentsAux_congr :
    ∀ (f g : Nat) (cs : List Char), cs.length < f → cs.length < g →
      scanCommentsAux f cs = scanCommentsAux g cs := by
  intro f
  induction f with
  | zero => intro g cs h1 h2; exact absurd h1 (Nat.not_lt_zero _)
  | succ f ih =>
    intro g cs h1 h2
    cases g with
    | zero => exact absurd h2 (Nat.not_lt_zero _)
    | succ g =>
      cases hm : scanComment cs with
      | none => simp only [scanCommentsAux, hm]
      | some pr =>
        obtain ⟨c1, rest⟩ := pr
        have hlt := scanComment_length hm
        simp only [scanCommentsAux, hm]
        rw [ih g rest (by omega) (by omega)]

theorem scanCommentsAux_snd_le :
    ∀ (fuel : Nat) (cs : List Char), ((scanCommentsAux fuel cs).2).length ≤ cs.length
  | 0, cs => Nat.le_refl _
  | fuel + 1, cs => by
    cases hm : scanComment cs with
    | none => simp only [scanCommentsAux, hm]; exact Nat.le_refl _
    | some pr =>
      obtain ⟨c1, rest⟩ := pr
      have h1 := scanComment_length hm
      have h2 := scanCommentsAux_snd_le fuel rest
      simp only [scanCommentsAux, hm]
      cases hr : scanCommentsAux fuel rest with
      | mk a b =>
        rw [hr] at h2
        cases a with
        | none =>
          show b.length ≤ cs.length
          have h2b : b.length ≤ rest.length := h2
          omega
        | some v =>
          show b.length ≤ cs.length
          have h2b : b.length ≤ rest.length := h2
          omega

theorem scanComments_snd_le (cs : List Char) : ((scanComments cs).2).length ≤ cs.length :=
  scanCommentsAux_snd_le _ cs

theorem lit_length : ∀ (l cs r : List Char), lit l cs = some r → r.length + l.length = cs.length
  | [], cs, r, h => by
    injection h with h'
    rw [h']
    simp
  | a :: l, [], r, h => absurd h (by simp [lit])
  | a :: l, c :: cs, r, h => by
    simp only [lit] at h
    by_cases hc : c = a
    · rw [if_pos hc] at h
      have := lit_length l cs r h
      simp only [List.length_cons]
      omega
    · rw [if_neg hc] at h
      exact absurd h (by simp)

theorem spaces1_length {cs r : List Char} (h : spaces1 cs = some r) : r.length < cs.length := by
  cases cs with
  | nil => exact absurd h (by simp [spaces1])
  | cons c t =>
    simp only [spaces1] at h
    by_cases hc : isPySpace c = true
    · rw [if_pos hc] at h
      injection h with h'
      rw [← h']
      have := dropWhile_length_le isPySpace t
      simp only [List.length_cons]
      omega
    · rw [if_neg hc] at h
      exact absurd h (by simp)

theorem word1_length {cs w r : List Char} (h : word1 cs = some (w, r)) :
    r.length ≤ cs.length := by
  unfold word1 at h
  cases ht : cs.takeWhile isPyWord with
  | nil => simp only [ht] at h; exact absurd h (by simp)
  | cons a t =>
    simp only [ht] at h
    injection h with h'
    injection h' with _ e2
    rw [← e2]
    exact dropWhile_length_le isPyWord cs

theorem uptoClose_length : ∀ {cs p r : List Char},
    uptoClose cs = some (p, r) → r.length < cs.length := by
  intro cs
  induction cs with
  | nil => intro p r h; exact absurd h (by simp [uptoClose])
  | cons c t ih =>
    intro p r h
    simp only [uptoClose] at h
    by_cases hc : c = '\x29'
    · rw [if_pos hc] at h
      injection h with h'
      injection h' with _ e2
      rw [← e2]
      simp
    · rw [if_neg hc] at h
      by_cases hn : c = '\n'
      · rw [if_pos hn] at h; exact absurd h (by simp)
      · rw [if_neg hn] at h
        cases hu : uptoClose t with
        | none => simp only [hu] at h; exact absurd h (by simp)
        | some pr =>
          obtain ⟨p', r'⟩ := pr
          simp only [hu] at h
          injection h with h'
          injection h' with _ e2
          have := ih hu
          rw [← e2]
          simp only [List.length_cons]
          omega

theorem nameParams_length {cs : List Char} {n p : String} {r : List Char}
    (h : nameParams cs = some (n, p, r)) : r.length < cs.length := by
  unfold nameParams at h
  cases hw : word1 cs with
  | none => simp only [hw] at h; exact absurd h (by simp)
  | some wr =>
    obtain ⟨w, r1⟩ := wr
    simp only [hw] at h
    cases hd : r1.dropWhile isPySpace with
    | nil => simp only [hd] at h; exact absurd h (by simp)
    | cons c r2 =>
      simp only [hd] at h
      by_cases hc : c = '\x28'
      · rw [if_pos hc] at h
        cases hu : uptoClose r2 with
        | none => simp only [hu] at h; exact absurd h (by simp)
        | some pr =>
          obtain ⟨p', r3⟩ := pr
          simp only [hu] at h
          injection h with h'
          injection h' with _ e2
          injection e2 with _ e3
          have h1 := word1_length hw
          have h2 : (c :: r2).length ≤ r1.length := by
            rw [← hd]
            exact dropWhile_length_le isPySpace r1
          have h3 := uptoClose_length hu
          rw [← e3]
          simp only [List.length_cons] at h2
          omega
      · rw [if_neg hc] at h
        exact absurd h (by simp)

theorem afterRecv_length : ∀ {cs : List Char} {n p : String} {r : List Char},
    afterRecv cs = some (n, p, r) → r.length < cs.length := by
  intro cs
  induction cs with
  | nil => intro n p r h; exact absurd h (by simp [afterRecv])
  | cons c t ih =>
    intro n p r h
    simp only [afterRecv] at h
    by_cases hc : c = '\x29'
    · rw [if_pos hc] at h
      cases hs : spaces1 t with
      | none =>
        simp only [hs] at h
        have := ih h
        simp only [List.length_cons]
        omega
      | some r' =>
        simp only [hs] at h
        cases hn : nameParams r' with
        | none =>
          simp only [hn] at h
          have := ih h
          simp only [List.length_cons]
          omega
        | some res =>
          obtain ⟨n', p', r''⟩ := res
          simp only [hn] at h
          injection h with h'
          injection h' with _ e2
          injection e2 with _ e3
          have h1 := spaces1_length hs
          have h2 := nameParams_length hn
          rw [← e3]
          simp only [List.length_cons]
          omega
    · rw [if_neg hc] at h
      by_cases hn : c = '\n'
      · rw [if_pos hn] at h; exact absurd h (by simp)
      · rw [if_neg hn] at h
        have := ih h
        simp only [List.length_cons]
        omega

theorem funcTail_length {cs : List Char} {n p : String} {r : List Char}
    (h : funcTail cs = some (n, p, r)) : r.length < cs.length := by
  cases cs with
  | nil => exact absurd h (by simp [funcTail])
  | cons c t =>
    simp only [funcTail] at h
    by_cases hc : c = '\x28'
    · rw [if_pos hc] at h
      cases ha : afterRecv t with
      | none =>
        simp only [ha] at h
        exact nameParams_length h
      | some res =>
        obtain ⟨n', p', r'⟩ := res
        simp only [ha] at h
        injection h with h'
        injection h' with _ e2
        injection e2 with _ e3
        have := afterRecv_length ha
        rw [← e3]
        simp only [List.length_cons]
        omega
    · rw [if_neg hc] at h
      exact nameParams_length h

theorem matchFuncHere_length {cs : List Char} {m : FuncMatch} {rest : List Char}
    (h : matchFuncHere cs = some (m, rest)) : rest.length < cs.length := by
  unfold matchFuncHere at h
  cases hl : lit ['f', 'u', 'n', 'c'] (((scanComments cs).2).dropWhile isPySpace) with
  | none => simp only [hl] at h; exact absurd h (by simp)
  | some r2 =>
    simp only [hl] at h
    cases hs : spaces1 r2 with
    | none => simp only [hs] at h; exact absurd h (by simp)
    | some r3 =>
      simp only [hs] at h
      cases ht : funcTail r3 with
      | none => simp only [ht] at h; exact absurd h (by simp)
      | some res =>
        obtain ⟨n, p, r⟩ := res
        simp only [ht] at h
        injection h with h'
        injection h' with _ e2
        have h1 := lit_length _ _ _ hl
        have h2 : (((scanComments cs).2).dropWhile isPySpace).length ≤ cs.length :=
          Nat.le_trans (dropWhile_length_le isPySpace _) (scanComments_snd_le cs)
        have h3 := spaces1_length hs
        have h4 := funcTail_length ht
        rw [← e2]
        simp only [List.length_cons] at h1
        omega

theorem funcFinditerAux_congr :
    ∀ (f g : Nat) (cs : List Char), cs.length < f → cs.length < g →
      funcFinditerAux f cs = funcFinditerAux g cs := by
  intro f
  induction f with
  | zero => intro g cs h1 h2; exact absurd h1 (Nat.not_lt_zero _)
  | succ f ih =>
    intro g cs h1 h2
    cases g with
    | zero => exact absurd h2 (Nat.not_lt_zero _)
    | succ g =>
      cases hm : matchFuncHere cs with
      | some pr =>
        obtain ⟨m, rest⟩ := pr
        have hlt := matchFuncHere_length hm
        simp only [funcFinditerAux, hm]
        rw [ih g rest (by omega) (by omega)]
      | none =>
        cases cs with
        | nil => simp only [funcFinditerAux, hm]
        | cons c t =>
          simp only [funcFinditerAux, hm]
          simp only [List.length_cons] at h1 h2
          rw [ih g t (by omega) (by omega)]

theorem funcFinditerAux_fuel (fuel : Nat) (cs : List Char) (h : cs.length < fuel) :
    funcFinditerAux fuel cs = funcFinditer cs :=
  funcFinditerAux_congr fuel (cs.length + 1) cs h (Nat.lt_succ_self _)

theorem matchStructHere_length {cs : List Char} {m : StructMatch} {rest : List Char}
    (h : matchStructHere cs = some (m, rest)) : rest.length < cs.length := by
  unfold matchStructHere at h
  cases hl : lit ['t', 'y', 'p', 'e'] (((scanComments cs).2).dropWhile isPySpace) with
  | none => simp only [hl] at h; exact absurd h (by simp)
  | some r2 =>
    simp only [hl] at h
    cases hs : spaces1 r2 with
    | none => simp only [hs] at h; exact absurd h (by simp)
    | some r3 =>
      simp only [hs] at h
      cases hw : word1 r3 with
      | none => simp only [hw] at h; exact absurd h (by simp)
      | some wr =>
        obtain ⟨w, r4⟩ := wr
        simp only [hw] at h
        cases hs2 : spaces1 r4 with
        | none => simp only [hs2] at h; exact absurd h (by simp)
        | some r5 =>
          simp only [hs2] at h
          cases hl2 : lit ['s', 't', 'r', 'u', 'c', 't'] r5 with
          | none => simp only [hl2] at h; exact absurd h (by simp)
          | some r6 =>
            simp only [hl2] at h
            cases hd : r6.dropWhile isPySpace with
            | nil => simp only [hd] at h; exact absurd h (by simp)
            | cons c rest2 =>
              simp only [hd] at h
              by_cases hc : c = '\x7b'
              · rw [if_pos hc] at h
                injection h with h'
                injection h' with _ e2
                have h1 := lit_length _ _ _ hl
                have h2 : (((scanComments cs).2).dropWhile isPySpace).length ≤ cs.length :=
                  Nat.le_trans (dropWhile_length_le isPySpace _) (scanComments_snd_le cs)
                have h3 := spaces1_length hs
                have h4 := word1_length hw
                have h5 := spaces1_length hs2
                have h6 := lit_length _ _ _ hl2
                have h7 : (c :: rest2).length ≤ r6.length := by
                  rw [← hd]
                  exact dropWhile_length_le isPySpace r6
                rw [← e2]
                simp only [List.length_cons] at h1 h6 h7
                omega
              · rw [if_neg hc] at h
                exact absurd h (by simp)

theorem structFinditerAux_congr :
    ∀ (f g : Nat) (cs : List Char), cs.length < f → cs.length < g →
      structFinditerAux f cs = structFinditerAux g cs := by
  intro f
  induction f with
  | zero => intro g cs h1 h2; exact absurd h1 (Nat.not_lt_zero _)
  | succ f ih =>
    intro g cs h1 h2
    cases g with
    | zero => exact absurd h2 (Nat.not_lt_zero _)
    | succ g =>
      cases hm : matchStructHere cs with
      | some pr =>
        obtain ⟨m, rest⟩ := pr
        have hlt := matchStructHere_length hm
        simp only [structFinditerAux, hm]
        rw [ih g rest (by omega) (by omega)]
      | none =>
        cases cs with
        | nil => simp only [structFinditerAux, hm]
        | cons c t =>
          simp only [structFinditerAux, hm]
          simp only [List.length_cons] at h1 h2
          rw [ih g t (by omega) (by omega)]

theorem structFinditerAux_fuel (fuel : Nat) (cs : List Char) (h : cs.length < fuel) :
    structFinditerAux fuel cs = structFinditer cs :=
  structFinditerAux_congr fuel (cs.length + 1) cs h (Nat.lt_succ_self _)
